import Mathlib

/-!
Verification of `get_rid_of_dup.py` (duplicate file finder and remover).

The source program is shallowly embedded here:

* A Python `dict` is modelled as an association list with Python-dict
  update semantics: `dictInsert` replaces the value in place when the key
  is present (keeping its position) and appends a fresh key at the end,
  exactly mirroring insertion-order-preserving Python dictionaries.
  `dictFind` is lookup (keys built this way are unique, so the first
  match is the dict lookup).  `dictAppend` mirrors
  `defaultdict(list)[k].append(v)`.
* A file on disk is modelled by its relative path together with the
  digest of its byte content: `compute_xxhash64` is the pluggable
  deterministic `Hash(bytes) -> Digest` collaborator, so hashing an
  unchanged file always yields the file's digest.
* The file system seen by the deletion driver is a list of absolute
  paths; `os.path.abspath(os.path.join(root, rel))` is modelled as
  `joinPath root rel = root ++ "/" ++ rel` (roots are absolute and the
  relative paths produced by `os.walk`/`os.path.relpath` contain no
  `..`), and `os.remove` removes the path from the list.
* Console output relevant to the claims is modelled as a list of events
  (`Ev`); `input()` in the interactive loop consumes one element of a
  list of operator reply strings per loop iteration.
-/

namespace GetRidOfDup

/-! ### Python dictionaries as association lists -/

/-- Lookup in an association list (Python `d[k]` / `k in d`). -/
def dictFind {α : Type} (tbl : List (String × α)) (k : String) : Option α :=
  match tbl with
  | [] => none
  | (k', v) :: rest => if k' = k then some v else dictFind rest k

/-- Python dict assignment `d[k] = v`: replace in place if the key exists
(keeping insertion order), else append at the end. -/
def dictInsert {α : Type} (tbl : List (String × α)) (k : String) (v : α) :
    List (String × α) :=
  match tbl with
  | [] => [(k, v)]
  | (k', v') :: rest =>
    if k' = k then (k, v) :: rest else (k', v') :: dictInsert rest k v

/-- Python `defaultdict(list)`: `d[k].append(v)`. -/
def dictAppend {α : Type} (tbl : List (String × List α)) (k : String) (v : α) :
    List (String × List α) :=
  match tbl with
  | [] => [(k, [v])]
  | (k', vs) :: rest =>
    if k' = k then (k', vs ++ [v]) :: rest else (k', vs) :: dictAppend rest k v

/-- Keys of an association list, in order. -/
def keysOf {α : Type} (tbl : List (String × α)) : List String :=
  tbl.map Prod.fst

/-! ### Source tree model -/

/-- A regular file of a directory tree: its path relative to the tree
root, and the digest of its byte content (`compute_xxhash64` output on
its full byte stream).  This is the `FileRecord` of the data model; the
absolute path is derived from the owning root, never stored. -/
structure SrcFile where
  path : String
  digest : String
  deriving DecidableEq, Repr

/-! ### Tree Digester (`calculate_checksums`, lines 289-353)

`calculate_checksums` runs the identical loop once over `base_dir` and
once over `other_dir`; `calc_dir_checksums` embeds that per-directory
loop.  For each file of the walk, if reuse is enabled and the relative
path is present in the loaded per-role checksum dict the stored digest is
adopted, otherwise the hash is computed (counted by the second
component).  Either way the table, a Python dict keyed by **checksum**,
is assigned `table[checksum] = record(path)` — an overwrite when the
digest was already present. -/

def calc_dir_go (existing : List (String × String)) (skipExisting : Bool) :
    List SrcFile → List (String × String) → Nat → List (String × String) × Nat
  | [], tbl, n => (tbl, n)
  | f :: fs, tbl, n =>
    match (if skipExisting then dictFind existing f.path else none) with
    | some c => calc_dir_go existing skipExisting fs (dictInsert tbl c f.path) n
    | none =>
      calc_dir_go existing skipExisting fs (dictInsert tbl f.digest f.path) (n + 1)

/-- The per-directory loop of `calculate_checksums`: resulting digest
table (a dict keyed by checksum) and the number of hash computations
performed. -/
def calc_dir_checksums (files : List SrcFile)
    (existing : List (String × String)) (skipExisting : Bool) :
    List (String × String) × Nat :=
  calc_dir_go existing skipExisting files [] 0

/-- The digest table obtained when every file's hash is computed: the
loop of `calc_dir_go` specialised to the no-reuse branch, used to state
its behaviour. -/
def digestTableOf : List SrcFile → List (String × String) → List (String × String)
  | [], t => t
  | f :: fs, t => digestTableOf fs (dictInsert t f.digest f.path)

/-- Two-tree digesting pass: the base and other directories are processed
by the same loop against their own role partition of the persisted
checksums (lines 300-353). -/
def calculate_checksums (baseFiles otherFiles : List SrcFile)
    (existingBase existingOther : List (String × String))
    (skipExisting : Bool) :
    (List (String × String) × Nat) × (List (String × String) × Nat) :=
  (calc_dir_checksums baseFiles existingBase skipExisting,
   calc_dir_checksums otherFiles existingOther skipExisting)

/-- The path-to-digest dict that `load_existing_checksums` rebuilds for
one role from the file written by `save_checksums` (lines 356-371 write
one `role\tdigest\tpath` line per table entry; lines 272-286 read them
back into `{path: digest}`).  For tab-free fields this round trip is the
entry-wise swap of the in-memory table. -/
def saved_path_map (tbl : List (String × String)) : List (String × String) :=
  tbl.map (fun e => (e.2, e.1))

/-! ### Duplicate Resolver, two-tree mode (`summarize_duplicates`, lines 397-413)

Inputs have the shape produced by `load_checksums` (lines 373-394): the
Canonical table maps each digest to one relative path, the Comparison
table maps each digest to the list of relative paths sharing it.  For
every digest of the Comparison table also present in the Canonical table
one group `(digest, canonical path, duplicate paths)` is emitted, in
Comparison-table order; `total_base_files = len(base_checksums)` and
`total_other_files = sum(len(v) for v in other_checksums.values())`. -/

def summarize_duplicates (base : List (String × String))
    (other : List (String × List String)) :
    List (String × String × List String) × Nat × Nat :=
  (other.filterMap (fun e => (dictFind base e.1).map (fun b => (e.1, b, e.2))),
   base.length,
   (other.map (fun e => e.2.length)).sum)

/-- Duplicate count of `display_summary` (line 442):
`sum(len(info["duplicates"]) for info in duplicates.values())`. -/
def total_duplicates_count (dups : List (String × String × List String)) : Nat :=
  (dups.map (fun g => g.2.2.length)).sum

/-- Unique-file count of `display_summary` (line 445):
`total_other_files - total_duplicates`. -/
def total_unique_count (totalOther : Nat)
    (dups : List (String × String × List String)) : Nat :=
  totalOther - total_duplicates_count dups

/-! ### Digest Store (`load_existing_checksums` lines 272-286,
`load_checksums` lines 373-394)

Both loaders read the checksum file line by line and evaluate
`line.strip().split("\t")`, unpacked into exactly three fields — any
other field count raises `ValueError`.  `pyStrip` and `splitTabChars`
model `str.strip` and `str.split("\t")` over the character list of the
line. -/

/-- Split a character list at every tab, `str.split("\t")`. -/
def splitTabChars : List Char → List (List Char)
  | [] => [[]]
  | c :: rest =>
    match splitTabChars rest with
    | [] => [[]]
    | cur :: done =>
      if c = '\t' then [] :: cur :: done else (c :: cur) :: done

/-- Python `str.strip()`: remove leading and trailing whitespace. -/
def pyStrip (s : String) : String :=
  String.mk
    (((s.toList.dropWhile Char.isWhitespace).reverse.dropWhile
        Char.isWhitespace).reverse)

/-- The fields of one persisted record line: `line.strip().split("\t")`. -/
def split_record (line : String) : List String :=
  (splitTabChars (pyStrip line).toList).map String.mk

/-- Tuple-unpacking `a, b, c = line.strip().split("\t")`: `some` on
exactly three fields, `none` for the `ValueError` of any other count. -/
def parseRecord3 (line : String) : Option (String × String × String) :=
  match split_record line with
  | [a, b, c] => some (a, b, c)
  | _ => none

/-- Loop of `load_existing_checksums` (lines 282-286).  The accumulator
holds the `BASE` and `OTHER` path-to-digest dicts.  A line that does not
unpack into three fields raises `ValueError`, and a category other than
`BASE`/`OTHER` raises `KeyError`; neither is caught, so the error
propagates to the caller with no table returned. -/
def load_existing_checksums_go :
    List String → List (String × String) × List (String × String) →
    Except String (List (String × String) × List (String × String))
  | [], acc => Except.ok acc
  | l :: rest, acc =>
    match parseRecord3 l with
    | none => Except.error l
    | some (cat, c, p) =>
      if cat = "BASE" then
        load_existing_checksums_go rest (dictInsert acc.1 p c, acc.2)
      else if cat = "OTHER" then
        load_existing_checksums_go rest (acc.1, dictInsert acc.2 p c)
      else Except.error l

/-- `load_existing_checksums` over the lines of the checksum file. -/
def load_existing_checksums (lines : List String) :
    Except String (List (String × String) × List (String × String)) :=
  load_existing_checksums_go lines ([], [])

/-- Loop of `load_checksums` (lines 380-386) together with its
`try/except` (lines 379-393): the whole loop is wrapped in an exception
handler that prints the error and falls through to
`return base_checksums, other_checksums`, so a malformed line stops the
loop and the tables accumulated **so far** are returned to the caller.
`BASE` lines build a digest-to-path dict, `OTHER` lines a
digest-to-path-list `defaultdict`; any other category is silently
skipped. -/
def load_checksums_go :
    List String → List (String × String) → List (String × List String) →
    List (String × String) × List (String × List String)
  | [], b, o => (b, o)
  | l :: rest, b, o =>
    match parseRecord3 l with
    | none => (b, o)
    | some (cat, c, p) =>
      if cat = "BASE" then load_checksums_go rest (dictInsert b c p) o
      else if cat = "OTHER" then load_checksums_go rest b (dictAppend o c p)
      else load_checksums_go rest b o

/-- `load_checksums` over the lines of the checksum file. -/
def load_checksums (lines : List String) :
    List (String × String) × List (String × List String) :=
  load_checksums_go lines [] []

/-! ### Single-tree mode (`calculate_checksums_single_dir` lines 688-733,
`summarize_duplicates_single_dir` lines 765-774)

The single-directory table maps each digest to an entry holding the
first file encountered with that digest (`original`) and every later
file with the same digest in encounter order (`duplicates`). -/

/-- One value of the single-directory checksum dict. -/
structure SingleEntry where
  original : String
  duplicates : List String
  deriving DecidableEq, Repr

/-- `checksums[checksum]["duplicates"].append(record)` (lines 723-726):
append to the duplicates of the entry with the given key. -/
def addDupPath (tbl : List (String × SingleEntry)) (k : String) (p : String) :
    List (String × SingleEntry) :=
  match tbl with
  | [] => []
  | (k', e) :: rest =>
    if k' = k then (k', ⟨e.original, e.duplicates ++ [p]⟩) :: rest
    else (k', e) :: addDupPath rest k p

/-- Lines 723-731: if the checksum is already a key, append the file to
that entry's duplicates, else insert a fresh entry with the file as
original and no duplicates. -/
def addFileSingle (tbl : List (String × SingleEntry)) (c : String) (p : String) :
    List (String × SingleEntry) :=
  match dictFind tbl c with
  | some _ => addDupPath tbl c p
  | none => tbl ++ [(c, ⟨p, []⟩)]

def calc_single_go (existing : List (String × String)) (skipExisting : Bool) :
    List SrcFile → List (String × SingleEntry) → Nat →
    List (String × SingleEntry) × Nat
  | [], tbl, n => (tbl, n)
  | f :: fs, tbl, n =>
    match (if skipExisting then dictFind existing f.path else none) with
    | some c => calc_single_go existing skipExisting fs (addFileSingle tbl c f.path) n
    | none =>
      calc_single_go existing skipExisting fs
        (addFileSingle tbl f.digest f.path) (n + 1)

/-- The single-directory digesting pass: the grouping table and the
number of hash computations performed. -/
def calculate_checksums_single_dir (files : List SrcFile)
    (existing : List (String × String)) (skipExisting : Bool) :
    List (String × SingleEntry) × Nat :=
  calc_single_go existing skipExisting files [] 0

/-- `summarize_duplicates_single_dir`: keep the entries with a non-empty
duplicates list (in table order), and count
`sum(1 + len(info["duplicates"]))` over the whole table. -/
def summarize_duplicates_single_dir (tbl : List (String × SingleEntry)) :
    List (String × SingleEntry) × Nat :=
  (tbl.filter (fun e => !e.2.duplicates.isEmpty),
   (tbl.map (fun e => 1 + e.2.duplicates.length)).sum)

/-- The relative paths of the files of the walk carrying digest `d`, in
traversal order — the specification-side occurrence list used to state
the resolver's behaviour. -/
def occList (d : String) : List SrcFile → List String
  | [] => []
  | f :: fs => if f.digest = d then f.path :: occList d fs else occList d fs

/-- Merging an existing table entry with the occurrences processed after
it, used to state the single-directory fold. -/
def combineEntry : Option SingleEntry → List String → Option SingleEntry
  | none, [] => none
  | none, p :: ps => some ⟨p, ps⟩
  | some e, ps => some ⟨e.original, e.duplicates ++ ps⟩

/-! ### Deletion Driver (`delete_duplicates` lines 496-685,
`delete_duplicates_single_dir` lines 849-1044)

The driver flattens the duplicate groups into an ordered queue of
(base, duplicate) pairs, then either walks an interactive confirmation
loop (one `input()` call per `while` iteration) or a batch loop.  The
file system is a list of absolute paths; console output relevant to the
claims is the `Ev` event trace. -/

/-- One queue item: the group's canonical (base/original) relative path
and one duplicate relative path. -/
structure Pair where
  base : String
  duplicate : String
  deriving DecidableEq, Repr

/-- A duplicate group as consumed by the drivers: canonical relative
path and the ordered duplicate relative paths. -/
structure DupGroup where
  base : String
  duplicates : List String
  deriving DecidableEq, Repr

/-- Lines 503-508: `for info in duplicates.values(): for file_info in
info["duplicates"]: files_to_delete.append(...)`. -/
def buildQueue (groups : List DupGroup) : List Pair :=
  (groups.map (fun g => g.duplicates.map (fun d => Pair.mk g.base d))).flatten

/-- `os.path.abspath(os.path.join(root, rel))` for an absolute `root`
and a relative path without `..`. -/
def joinPath (root rel : String) : String :=
  root ++ "/" ++ rel

/-- `os.remove`: drop the path from the file system. -/
def removeFirst : List String → String → List String
  | [], _ => []
  | x :: rest, p => if x = p then rest else x :: removeFirst rest p

/-- Observable console events of the deletion driver. -/
inductive Ev where
  | announce (total : Nat)
  | prompt (idx : Nat)
  | progress (idx total : Nat)
  | deleted (p : String)
  | skipped (p : String)
  | notFound (p : String)
  | invalid
  | cancelled
  | summary (totalDeleted : Nat)
  | reminder
  deriving DecidableEq, Repr

/-- The per-target removal of every deletion site (lines 588-600,
614-632, 662-674 and their single-dir twins): if the path exists remove
it and count one deletion, else report a not-found warning and leave the
file system and counter untouched. -/
def deleteIfExists (fs : List String) (p : String) : List String × Nat × Ev :=
  if p ∈ fs then (removeFirst fs p, 1, Ev.deleted p) else (fs, 0, Ev.notFound p)

/-- The closed interactive command set (lines 548-585): `y`, `n`,
`y<digits>`, `n<digits>`, `yall`, `nall`, anything else invalid. -/
inductive Cmd where
  | y
  | n
  | yNum (k : Nat)
  | nNum (k : Nat)
  | yall
  | nall
  | invalid
  deriving DecidableEq, Repr

/-- Python `str.lower()` over the characters of the string. -/
def pyLower (s : String) : String :=
  String.mk (s.toList.map Char.toLower)

/-- Python `str.isdigit()` (non-empty, all digits). -/
def isDigits (cs : List Char) : Bool :=
  !cs.isEmpty && cs.all Char.isDigit

/-- Python `int(...)` on a digit string. -/
def digitsVal (cs : List Char) : Nat :=
  cs.foldl (fun n c => n * 10 + (c.toNat - 48)) 0

/-- The branch cascade on `user_input.strip().lower()` (lines 548-585),
in source order: `"y"`, `"n"`, `startswith("y") and rest.isdigit()`,
`startswith("n") and rest.isdigit()`, `"yall"`, `"nall"`, else invalid
input. -/
def parseCmd (raw : String) : Cmd :=
  let cs := (pyStrip raw).toList.map Char.toLower
  if cs = ['y'] then Cmd.y
  else if cs = ['n'] then Cmd.n
  else if cs.head? = some 'y' ∧ isDigits cs.tail = true then
    Cmd.yNum (digitsVal cs.tail)
  else if cs.head? = some 'n' ∧ isDigits cs.tail = true then
    Cmd.nNum (digitsVal cs.tail)
  else if cs = ['y', 'a', 'l', 'l'] then Cmd.yall
  else if cs = ['n', 'a', 'l', 'l'] then Cmd.nall
  else Cmd.invalid

/-- The auto-delete run of lines 602-633: after the confirmed deletion
the cursor was already advanced once; each of the up-to-`skip_count`
iterations advances the cursor first, stops if it ran off the queue, and
otherwise removes the item now under the cursor without prompting.
Returns the final cursor, file system, deletions performed and events. -/
def autoDelete (queue : List Pair) (root : String) :
    Nat → Nat → List String → Nat × List String × Nat × List Ev
  | 0, idx, fs => (idx, fs, 0, [])
  | k + 1, idx, fs =>
    let idx1 := idx + 1
    if h : idx1 < queue.length then
      match deleteIfExists fs (joinPath root (queue.get ⟨idx1, h⟩).duplicate) with
      | (fs1, inc, ev) =>
        match autoDelete queue root k idx1 fs1 with
        | (idxF, fsF, incF, evs) => (idxF, fsF, inc + incF, ev :: evs)
    else (idx1, fs, 0, [])

/-- The interactive `while idx < total_files` loop (lines 518-633): each
iteration renders the lookahead preview, consumes one operator reply and
dispatches on it; `y<N>` and `yall` trigger an `autoDelete` run before
the next prompt.  The loop also ends when the operator reply list is
exhausted (the real loop would block on `input()` forever). -/
def iloop (queue : List Pair) (root : String) :
    List String → Nat → List String → Nat → List String × Nat × List Ev
  | [], _, fs, deleted => (fs, deleted, [])
  | raw :: rest, idx, fs, deleted =>
    if h : idx < queue.length then
      let dupPath := joinPath root (queue.get ⟨idx, h⟩).duplicate
      match parseCmd raw with
      | Cmd.y =>
        match deleteIfExists fs dupPath with
        | (fs1, inc, ev) =>
          match iloop queue root rest (idx + 1) fs1 (deleted + inc) with
          | (fsF, delF, evs) => (fsF, delF, Ev.prompt idx :: ev :: evs)
      | Cmd.n =>
        match iloop queue root rest (idx + 1) fs deleted with
        | (fsF, delF, evs) =>
          (fsF, delF, Ev.prompt idx :: Ev.skipped dupPath :: evs)
      | Cmd.yNum k =>
        match deleteIfExists fs dupPath with
        | (fs1, inc, ev) =>
          match autoDelete queue root (k - 1) (idx + 1) fs1 with
          | (idx2, fs2, inc2, evs2) =>
            match iloop queue root rest idx2 fs2 (deleted + inc + inc2) with
            | (fsF, delF, evs) =>
              (fsF, delF, Ev.prompt idx :: ev :: (evs2 ++ evs))
      | Cmd.nNum k =>
        match iloop queue root rest (min (idx + k) queue.length) fs deleted with
        | (fsF, delF, evs) =>
          (fsF, delF, Ev.prompt idx ::
            (((queue.drop idx).take k).map
              (fun it => Ev.skipped (joinPath root it.duplicate)) ++ evs))
      | Cmd.yall =>
        match deleteIfExists fs dupPath with
        | (fs1, inc, ev) =>
          match autoDelete queue root (queue.length - idx - 1) (idx + 1) fs1 with
          | (idx2, fs2, inc2, evs2) =>
            match iloop queue root rest idx2 fs2 (deleted + inc + inc2) with
            | (fsF, delF, evs) =>
              (fsF, delF, Ev.prompt idx :: ev :: (evs2 ++ evs))
      | Cmd.nall =>
        (fs, deleted, Ev.prompt idx :: Ev.cancelled ::
          (queue.drop idx).map (fun it => Ev.skipped (joinPath root it.duplicate)))
      | Cmd.invalid =>
        match iloop queue root rest idx fs deleted with
        | (fsF, delF, evs) => (fsF, delF, Ev.prompt idx :: Ev.invalid :: evs)
    else (fs, deleted, [])

/-- The batch loop of lines 648-677: report progress, delete-if-exists,
then sleep (a no-op here) before the next item. -/
def batchLoop (root : String) :
    List Pair → List String → Nat → Nat → Nat → List String × Nat × List Ev
  | [], fs, deleted, _, _ => (fs, deleted, [])
  | it :: rest, fs, deleted, idx, total =>
    match deleteIfExists fs (joinPath root it.duplicate) with
    | (fs1, inc, ev) =>
      match batchLoop root rest fs1 (deleted + inc) (idx + 1) total with
      | (fsF, delF, evs) =>
        (fsF, delF, Ev.progress idx total :: ev :: evs)

/-- `delete_duplicates` (lines 496-685).  `base_dir` and `list_next`
only affect display.  In interactive mode (`confirm = true`) the
confirmation loop runs and the exit report (total deleted and the
checksum-staleness reminder, lines 679-685) always follows.  In batch
mode with `sleep_time = 0`, a declined initial yes/no confirmation
returns early (line 646) **before** the exit report; otherwise the batch
loop runs and the exit report follows. -/
def delete_duplicates (dups : List DupGroup) (base_dir other_dir : String)
    (sleep_time : Nat) (confirm : Bool) (list_next : Nat)
    (inputs : List String) (batchAnswer : String) (fs : List String) :
    List String × Nat × List Ev :=
  let queue := buildQueue dups
  if confirm then
    match iloop queue other_dir inputs 0 fs 0 with
    | (fsF, del, evs) =>
      (fsF, del,
        Ev.announce queue.length :: (evs ++ [Ev.summary del, Ev.reminder]))
  else
    if sleep_time = 0 ∧ pyLower batchAnswer ≠ "yes" then
      (fs, 0, [Ev.announce queue.length, Ev.cancelled])
    else
      match batchLoop other_dir queue fs 0 1 queue.length with
      | (fsF, del, evs) =>
        (fsF, del,
          Ev.announce queue.length :: (evs ++ [Ev.summary del, Ev.reminder]))

/-- `delete_duplicates_single_dir` (lines 849-1044) duplicates the
two-tree driver verbatim, with `directory` as the join root for both the
duplicate and the original path; the embedding instantiates the two-tree
driver accordingly. -/
def delete_duplicates_single_dir (dups : List DupGroup) (directory : String)
    (sleep_time : Nat) (confirm : Bool) (list_next : Nat)
    (inputs : List String) (batchAnswer : String) (fs : List String) :
    List String × Nat × List Ev :=
  delete_duplicates dups directory directory sleep_time confirm list_next
    inputs batchAnswer fs

/-- The paths removed from the file system during a run, in order. -/
def deletedPaths (evs : List Ev) : List String :=
  evs.filterMap (fun e => match e with | Ev.deleted p => some p | _ => none)

/-- The resolved (joined) duplicate paths of a queue. -/
def dupJoined (root : String) (queue : List Pair) : List String :=
  queue.map (fun it => joinPath root it.duplicate)

/-! ## Helper lemmas -/

theorem dictFind_eq_none_iff {α : Type} {tbl : List (String × α)} {k : String} :
    dictFind tbl k = none ↔ k ∉ keysOf tbl := by
  induction tbl with
  | nil => simp [dictFind, keysOf]
  | cons e rest ih =>
    obtain ⟨k', v⟩ := e
    by_cases h : k' = k
    · subst h
      simp [dictFind, keysOf]
    · simp [dictFind, keysOf, h, ih, Ne.symm h]

theorem dictFind_isSome_of_mem_keys {α : Type} {tbl : List (String × α)}
    {k : String} (h : k ∈ keysOf tbl) : (dictFind tbl k).isSome := by
  cases hf : dictFind tbl k with
  | none => exact absurd (dictFind_eq_none_iff.mp hf) (by simpa using h)
  | some v => rfl

theorem dictInsert_of_find_none {α : Type} {tbl : List (String × α)} {k : String}
    (h : dictFind tbl k = none) (v : α) :
    dictInsert tbl k v = tbl ++ [(k, v)] := by
  induction tbl with
  | nil => rfl
  | cons e rest ih =>
    obtain ⟨k', v'⟩ := e
    simp only [dictFind] at h
    by_cases hk : k' = k
    · rw [if_pos hk] at h
      exact absurd h (by simp)
    · rw [if_neg hk] at h
      simp only [dictInsert, if_neg hk, List.cons_append]
      rw [ih h]

theorem mem_of_dictFind_eq_some {α : Type} {tbl : List (String × α)} {k : String}
    {v : α} (h : dictFind tbl k = some v) : (k, v) ∈ tbl := by
  induction tbl with
  | nil => simp [dictFind] at h
  | cons e rest ih =>
    obtain ⟨k', v'⟩ := e
    simp only [dictFind] at h
    by_cases hk : k' = k
    · rw [if_pos hk] at h
      injection h with hv
      subst hk
      subst hv
      exact List.mem_cons_self _ _
    · rw [if_neg hk] at h
      exact List.mem_cons_of_mem _ (ih h)

theorem mem_dictInsert {α : Type} {tbl : List (String × α)} {k : String} {v : α}
    {x : String × α} (h : x ∈ dictInsert tbl k v) : x ∈ tbl ∨ x = (k, v) := by
  induction tbl with
  | nil =>
    simp only [dictInsert, List.mem_singleton] at h
    exact Or.inr h
  | cons e rest ih =>
    obtain ⟨k', v'⟩ := e
    simp only [dictInsert] at h
    by_cases hk : k' = k
    · rw [if_pos hk] at h
      rcases List.mem_cons.mp h with h1 | h1
      · exact Or.inr h1
      · exact Or.inl (List.mem_cons_of_mem _ h1)
    · rw [if_neg hk] at h
      rcases List.mem_cons.mp h with h1 | h1
      · exact Or.inl (h1 ▸ List.mem_cons_self _ _)
      · rcases ih h1 with h2 | h2
        · exact Or.inl (List.mem_cons_of_mem _ h2)
        · exact Or.inr h2

/-! Behaviour of the digesting loop. -/

theorem calc_dir_go_false (ex : List (String × String)) :
    ∀ (files : List SrcFile) (t : List (String × String)) (n : Nat),
      calc_dir_go ex false files t n = (digestTableOf files t, n + files.length) := by
  intro files
  induction files with
  | nil => intro t n; simp [calc_dir_go, digestTableOf]
  | cons f fs ih =>
    intro t n
    show calc_dir_go ex false fs (dictInsert t f.digest f.path) (n + 1)
      = (digestTableOf fs (dictInsert t f.digest f.path), n + (f :: fs).length)
    rw [ih]
    simp only [List.length_cons, Prod.mk.injEq, true_and]
    omega

theorem mem_digestTableOf {x : String × String} :
    ∀ {files : List SrcFile} {t : List (String × String)},
      x ∈ digestTableOf files t →
      x ∈ t ∨ ∃ f ∈ files, x = (f.digest, f.path) := by
  intro files
  induction files with
  | nil => intro t h; exact Or.inl h
  | cons f fs ih =>
    intro t h
    rcases ih h with h1 | ⟨g, hg, hx⟩
    · rcases mem_dictInsert h1 with h2 | h2
      · exact Or.inl h2
      · exact Or.inr ⟨f, List.mem_cons_self _ _, h2⟩
    · exact Or.inr ⟨g, List.mem_cons_of_mem _ hg, hx⟩

theorem digestTableOf_of_nodup :
    ∀ {files : List SrcFile} {t : List (String × String)},
      (files.map SrcFile.digest).Nodup →
      (∀ f ∈ files, f.digest ∉ keysOf t) →
      digestTableOf files t = t ++ files.map (fun f => (f.digest, f.path)) := by
  intro files
  induction files with
  | nil => intro t _ _; simp [digestTableOf]
  | cons f fs ih =>
    intro t hd hk
    have hfind : dictFind t f.digest = none :=
      dictFind_eq_none_iff.mpr (hk f (List.mem_cons_self _ _))
    show digestTableOf fs (dictInsert t f.digest f.path) = _
    rw [dictInsert_of_find_none hfind]
    rw [ih (by simpa using hd.of_cons) ?_]
    · simp
    · intro g hg
      have h1 : g.digest ∉ keysOf t := hk g (List.mem_cons_of_mem _ hg)
      have h2 : g.digest ≠ f.digest := by
        simp only [List.map_cons, List.nodup_cons, List.mem_map] at hd
        intro h
        exact hd.1 ⟨g, hg, h⟩
      simp only [keysOf, List.map_append, List.mem_append, List.map_cons,
        List.map_nil, List.mem_singleton]
      push_neg
      exact ⟨by simpa [keysOf] using h1, h2⟩

theorem calc_dir_go_reuse_table (saved : List (String × String)) :
    ∀ (files : List SrcFile) (t : List (String × String)) (n : Nat),
      (∀ f ∈ files, ∀ c, dictFind saved f.path = some c → c = f.digest) →
      (calc_dir_go saved true files t n).1 = digestTableOf files t := by
  intro files
  induction files with
  | nil => intro t n _; rfl
  | cons f fs ih =>
    intro t n hs
    show (match dictFind saved f.path with
      | some c => calc_dir_go saved true fs (dictInsert t c f.path) n
      | none => calc_dir_go saved true fs (dictInsert t f.digest f.path) (n + 1)).1
      = digestTableOf fs (dictInsert t f.digest f.path)
    cases hf : dictFind saved f.path with
    | none => exact ih _ _ (fun g hg => hs g (List.mem_cons_of_mem _ hg))
    | some c =>
      rw [hs f (List.mem_cons_self _ _) c hf]
      exact ih _ _ (fun g hg => hs g (List.mem_cons_of_mem _ hg))

theorem calc_dir_go_reuse_count (saved : List (String × String)) :
    ∀ (files : List SrcFile) (t : List (String × String)) (n : Nat),
      (∀ f ∈ files, (dictFind saved f.path).isSome) →
      (calc_dir_go saved true files t n).2 = n := by
  intro files
  induction files with
  | nil => intro t n _; rfl
  | cons f fs ih =>
    intro t n hs
    show (match dictFind saved f.path with
      | some c => calc_dir_go saved true fs (dictInsert t c f.path) n
      | none => calc_dir_go saved true fs (dictInsert t f.digest f.path) (n + 1)).2 = n
    cases hf : dictFind saved f.path with
    | none =>
      have := hs f (List.mem_cons_self _ _)
      rw [hf] at this
      exact absurd this (by simp)
    | some c => exact ih _ _ (fun g hg => hs g (List.mem_cons_of_mem _ hg))

theorem saved_digest_correct (files : List SrcFile)
    (hp : (files.map SrcFile.path).Nodup) :
    ∀ f ∈ files, ∀ c,
      dictFind (saved_path_map (digestTableOf files [])) f.path = some c →
      c = f.digest := by
  intro f hf c hc
  have hmem := mem_of_dictFind_eq_some hc
  simp only [saved_path_map, List.mem_map] at hmem
  obtain ⟨⟨c', p'⟩, hm, he⟩ := hmem
  rw [Prod.mk.injEq] at he
  obtain ⟨hp', hc'⟩ := he
  subst hp'
  subst hc'
  rcases mem_digestTableOf hm with h0 | ⟨g, hg, hx⟩
  · simp at h0
  · rw [Prod.mk.injEq] at hx
    obtain ⟨hgd, hgp⟩ := hx
    have : g = f := List.inj_on_of_nodup_map hp hg hf hgp.symm
    rw [hgd, this]

/-! Behaviour of the single-directory grouping loop. -/

theorem dictFind_append {α : Type} (l1 l2 : List (String × α)) (k : String) :
    dictFind (l1 ++ l2) k
      = match dictFind l1 k with
        | some v => some v
        | none => dictFind l2 k := by
  induction l1 with
  | nil => rfl
  | cons e rest ih =>
    obtain ⟨k', v⟩ := e
    by_cases h : k' = k
    · simp [dictFind, h]
    · simp [dictFind, h, ih]

theorem dictFind_addDupPath (tbl : List (String × SingleEntry)) (k p d : String) :
    dictFind (addDupPath tbl k p) d
      = if d = k then
          (dictFind tbl d).map (fun e => ⟨e.original, e.duplicates ++ [p]⟩)
        else dictFind tbl d := by
  induction tbl with
  | nil => by_cases h : d = k <;> simp [addDupPath, dictFind, h]
  | cons x rest ih =>
    obtain ⟨k', e⟩ := x
    by_cases hk : k' = k
    · subst hk
      by_cases hd : k' = d
      · subst hd
        simp [addDupPath, dictFind]
      · have hdk : ¬d = k' := fun h => hd h.symm
        simp [addDupPath, dictFind, hd, hdk]
    · by_cases hd : k' = d
      · subst hd
        have hdk : ¬k' = k := hk
        simp [addDupPath, dictFind, hk, hdk]
      · simp [addDupPath, dictFind, hk, hd, ih]

theorem combineEntry_nil (o : Option SingleEntry) : combineEntry o [] = o := by
  cases o with
  | none => rfl
  | some e => simp [combineEntry]

theorem calc_single_find (d : String) :
    ∀ (files : List SrcFile) (tbl : List (String × SingleEntry)) (n : Nat),
      dictFind (calc_single_go [] false files tbl n).1 d
        = combineEntry (dictFind tbl d) (occList d files) := by
  intro files
  induction files with
  | nil => intro tbl n; exact (combineEntry_nil _).symm
  | cons f fs ih =>
    intro tbl n
    show dictFind
        (calc_single_go [] false fs (addFileSingle tbl f.digest f.path) (n + 1)).1 d
      = _
    rw [ih]
    by_cases hfd : f.digest = d
    · subst hfd
      simp only [occList, if_pos rfl]
      unfold addFileSingle
      cases hft : dictFind tbl f.digest with
      | none =>
        rw [dictFind_append, hft]
        simp [dictFind, combineEntry]
      | some e =>
        rw [dictFind_addDupPath, if_pos rfl, hft]
        simp [combineEntry, List.append_assoc]
    · simp only [occList, if_neg hfd]
      unfold addFileSingle
      cases hft : dictFind tbl f.digest with
      | none =>
        rw [dictFind_append]
        cases h2 : dictFind tbl d <;> simp [dictFind, hfd, h2]
      | some e =>
        rw [dictFind_addDupPath, if_neg (fun h : d = f.digest => hfd h.symm)]

theorem keysOf_addDupPath (tbl : List (String × SingleEntry)) (k p : String) :
    keysOf (addDupPath tbl k p) = keysOf tbl := by
  induction tbl with
  | nil => rfl
  | cons x rest ih =>
    obtain ⟨k', e⟩ := x
    by_cases h : k' = k
    · simp [addDupPath, keysOf, h]
    · simp only [addDupPath, if_neg h]
      simp only [keysOf, List.map_cons] at ih ⊢
      rw [ih]

theorem calc_single_keys_nodup :
    ∀ (files : List SrcFile) (tbl : List (String × SingleEntry)) (n : Nat),
      (keysOf tbl).Nodup →
      (keysOf (calc_single_go [] false files tbl n).1).Nodup := by
  intro files
  induction files with
  | nil => intro tbl n h; exact h
  | cons f fs ih =>
    intro tbl n h
    show (keysOf
        (calc_single_go [] false fs (addFileSingle tbl f.digest f.path) (n + 1)).1).Nodup
    apply ih
    unfold addFileSingle
    cases hft : dictFind tbl f.digest with
    | some e => rw [keysOf_addDupPath]; exact h
    | none =>
      have hni : f.digest ∉ keysOf tbl := dictFind_eq_none_iff.mp hft
      simp only [keysOf, List.map_append, List.map_cons, List.map_nil]
      rw [List.nodup_append]
      refine ⟨h, List.nodup_singleton _, ?_⟩
      intro a ha hb
      simp only [List.mem_singleton] at hb
      subst hb
      exact hni ha

theorem dictFind_filter_none {α : Type} (pr : String × α → Bool)
    {tbl : List (String × α)} {k : String} (h : k ∉ keysOf tbl) :
    dictFind (tbl.filter pr) k = none := by
  induction tbl with
  | nil => rfl
  | cons x rest ih =>
    obtain ⟨k', v⟩ := x
    simp only [keysOf, List.map_cons, List.mem_cons] at h
    push_neg at h
    rw [List.filter_cons]
    by_cases hp : pr (k', v)
    · simp only [if_pos hp, dictFind]
      rw [if_neg (fun hh : k' = k => h.1 hh.symm)]
      exact ih h.2
    · simp only [if_neg hp]
      exact ih h.2

theorem dictFind_filter_of_nodup {α : Type} (pr : String × α → Bool) :
    ∀ {tbl : List (String × α)}, (keysOf tbl).Nodup → ∀ (k : String),
      dictFind (tbl.filter pr) k
        = match dictFind tbl k with
          | some v => if pr (k, v) then some v else none
          | none => none := by
  intro tbl
  induction tbl with
  | nil => intro _ k; rfl
  | cons x rest ih =>
    intro h k
    obtain ⟨k', v⟩ := x
    have hn : (keysOf rest).Nodup := by
      simp only [keysOf, List.map_cons, List.nodup_cons] at h
      exact h.2
    rw [List.filter_cons]
    by_cases hk : k' = k
    · subst hk
      have hnotin : k' ∉ keysOf rest := by
        simp only [keysOf, List.map_cons, List.nodup_cons] at h
        exact h.1
      rw [show dictFind ((k', v) :: rest) k' = some v from by simp [dictFind]]
      by_cases hp : pr (k', v)
      · simp [dictFind, hp]
      · simp only [if_neg hp]
        exact dictFind_filter_none pr hnotin
    · rw [show dictFind ((k', v) :: rest) k = dictFind rest k from by
        simp [dictFind, hk]]
      by_cases hp : pr (k', v)
      · simp only [if_pos hp, dictFind, if_neg hk]
        exact ih hn k
      · simp only [if_neg hp]
        exact ih hn k

/-! Behaviour of the deletion driver. -/

theorem deleteIfExists_cases (fs : List String) (p : String) :
    (p ∈ fs ∧ deleteIfExists fs p = (removeFirst fs p, 1, Ev.deleted p)) ∨
    (p ∉ fs ∧ deleteIfExists fs p = (fs, 0, Ev.notFound p)) := by
  by_cases h : p ∈ fs
  · exact Or.inl ⟨h, by simp [deleteIfExists, h]⟩
  · exact Or.inr ⟨h, by simp [deleteIfExists, h]⟩

theorem mem_removeFirst {fs : List String} {q p : String} (h : q ≠ p)
    (hq : q ∈ fs) : q ∈ removeFirst fs p := by
  induction fs with
  | nil => simp at hq
  | cons x rest ih =>
    by_cases hx : x = p
    · simp only [removeFirst, if_pos hx]
      rcases List.mem_cons.mp hq with h1 | h1
      · exact absurd (h1.trans hx) h
      · exact h1
    · simp only [removeFirst, if_neg hx]
      rcases List.mem_cons.mp hq with h1 | h1
      · exact h1 ▸ List.mem_cons_self _ _
      · exact List.mem_cons_of_mem _ (ih h1)

theorem mem_deletedPaths {p : String} {evs : List Ev} :
    p ∈ deletedPaths evs ↔ Ev.deleted p ∈ evs := by
  induction evs with
  | nil => simp [deletedPaths]
  | cons e rest ih =>
    simp only [deletedPaths, List.filterMap_cons] at ih ⊢
    cases e <;> simp_all

theorem autoDelete_spec (queue : List Pair) (root : String) :
    ∀ (k idx : Nat) (fs : List String),
      (∀ x, Ev.deleted x ∈ (autoDelete queue root k idx fs).2.2.2 →
        x ∈ dupJoined root queue) ∧
      (∀ q, q ∈ fs → Ev.deleted q ∉ (autoDelete queue root k idx fs).2.2.2 →
        q ∈ (autoDelete queue root k idx fs).2.1) := by
  intro k
  induction k with
  | zero =>
    intro idx fs
    constructor
    · intro x hx
      simp [autoDelete] at hx
    · intro q hq _
      exact hq
  | succ k ih =>
    intro idx fs
    by_cases h : idx + 1 < queue.length
    · have hpmem : joinPath root (queue.get ⟨idx + 1, h⟩).duplicate
          ∈ dupJoined root queue :=
        List.mem_map_of_mem _ (queue.get_mem _ _)
      rcases deleteIfExists_cases fs
          (joinPath root (queue.get ⟨idx + 1, h⟩).duplicate) with ⟨hp, hd⟩ | ⟨hp, hd⟩
      · rcases ha : autoDelete queue root k (idx + 1)
            (removeFirst fs (joinPath root (queue.get ⟨idx + 1, h⟩).duplicate))
          with ⟨idxF, fsF, incF, evs⟩
        have hstep : autoDelete queue root (k + 1) idx fs
            = (idxF, fsF, 1 + incF,
               Ev.deleted (joinPath root (queue.get ⟨idx + 1, h⟩).duplicate) :: evs) := by
          rw [autoDelete, dif_pos h, hd]
          dsimp only
          rw [ha]
        rw [hstep]
        constructor
        · intro x hx
          rcases List.mem_cons.mp hx with h1 | h1
          · injection h1 with h2
            exact h2 ▸ hpmem
          · have := (ih (idx + 1)
                (removeFirst fs (joinPath root (queue.get ⟨idx + 1, h⟩).duplicate))).1 x
            rw [ha] at this
            exact this h1
        · intro q hq hnq
          have hqp : q ≠ joinPath root (queue.get ⟨idx + 1, h⟩).duplicate :=
            fun he => hnq (he ▸ List.mem_cons_self _ _)
          have hq1 : q ∈ removeFirst fs
              (joinPath root (queue.get ⟨idx + 1, h⟩).duplicate) :=
            mem_removeFirst hqp hq
          have := (ih (idx + 1)
              (removeFirst fs (joinPath root (queue.get ⟨idx + 1, h⟩).duplicate))).2 q hq1
          rw [ha] at this
          exact this (fun hm => hnq (List.mem_cons_of_mem _ hm))
      · rcases ha : autoDelete queue root k (idx + 1) fs
          with ⟨idxF, fsF, incF, evs⟩
        have hstep : autoDelete queue root (k + 1) idx fs
            = (idxF, fsF, 0 + incF,
               Ev.notFound (joinPath root (queue.get ⟨idx + 1, h⟩).duplicate) :: evs) := by
          rw [autoDelete, dif_pos h, hd]
          dsimp only
          rw [ha]
        rw [hstep]
        constructor
        · intro x hx
          rcases List.mem_cons.mp hx with h1 | h1
          · exact absurd h1 (by simp)
          · have := (ih (idx + 1) fs).1 x
            rw [ha] at this
            exact this h1
        · intro q hq hnq
          have := (ih (idx + 1) fs).2 q hq
          rw [ha] at this
          exact this (fun hm => hnq (List.mem_cons_of_mem _ hm))
    · have hstep : autoDelete queue root (k + 1) idx fs = (idx + 1, fs, 0, []) := by
        rw [autoDelete]
        rw [dif_neg h]
      rw [hstep]
      constructor
      · intro x hx
        simp at hx
      · intro q hq _
        exact hq

theorem deleted_not_mem_skipped_map (l : List Pair) (root : String) (x : String) :
    Ev.deleted x ∉ l.map (fun it => Ev.skipped (joinPath root it.duplicate)) := by
  simp [List.mem_map]

theorem iloop_spec (queue : List Pair) (root : String) :
    ∀ (inputs : List String) (idx : Nat) (fs : List String) (del : Nat),
      (∀ x, Ev.deleted x ∈ (iloop queue root inputs idx fs del).2.2 →
        x ∈ dupJoined root queue) ∧
      (∀ q, q ∈ fs → Ev.deleted q ∉ (iloop queue root inputs idx fs del).2.2 →
        q ∈ (iloop queue root inputs idx fs del).1) := by
  intro inputs
  induction inputs with
  | nil =>
    intro idx fs del
    exact ⟨fun x hx => by simp [iloop] at hx, fun q hq _ => hq⟩
  | cons raw rest ih =>
    intro idx fs del
    by_cases h : idx < queue.length
    · have hcur : joinPath root (queue.get ⟨idx, h⟩).duplicate
          ∈ dupJoined root queue :=
        List.mem_map_of_mem _ (queue.get_mem _ _)
      cases hc : parseCmd raw with
      | y =>
        rcases deleteIfExists_cases fs (joinPath root (queue.get ⟨idx, h⟩).duplicate)
          with ⟨hp, hd⟩ | ⟨hp, hd⟩
        · rcases hr : iloop queue root rest (idx + 1)
              (removeFirst fs (joinPath root (queue.get ⟨idx, h⟩).duplicate))
              (del + 1) with ⟨fsF, delF, evs⟩
          have hstep : iloop queue root (raw :: rest) idx fs del
              = (fsF, delF, Ev.prompt idx
                  :: Ev.deleted (joinPath root (queue.get ⟨idx, h⟩).duplicate)
                  :: evs) := by
            rw [iloop, dif_pos h, hc]
            dsimp only
            rw [hd]
            dsimp only
            rw [hr]
          rw [hstep]
          constructor
          · intro x hx
            rcases List.mem_cons.mp hx with h1 | h1
            · exact absurd h1 (by simp)
            · rcases List.mem_cons.mp h1 with h2 | h2
              · injection h2 with h3
                subst h3
                exact hcur
              · have := (ih (idx + 1)
                    (removeFirst fs (joinPath root (queue.get ⟨idx, h⟩).duplicate))
                    (del + 1)).1 x
                rw [hr] at this
                exact this h2
          · intro q hq hnq
            have hqp : q ≠ joinPath root (queue.get ⟨idx, h⟩).duplicate :=
              fun he => hnq (List.mem_cons_of_mem _ (he ▸ List.mem_cons_self _ _))
            have := (ih (idx + 1)
                (removeFirst fs (joinPath root (queue.get ⟨idx, h⟩).duplicate))
                (del + 1)).2 q (mem_removeFirst hqp hq)
            rw [hr] at this
            exact this (fun hm =>
              hnq (List.mem_cons_of_mem _ (List.mem_cons_of_mem _ hm)))
        · rcases hr : iloop queue root rest (idx + 1) fs (del + 0)
            with ⟨fsF, delF, evs⟩
          have hstep : iloop queue root (raw :: rest) idx fs del
              = (fsF, delF, Ev.prompt idx
                  :: Ev.notFound (joinPath root (queue.get ⟨idx, h⟩).duplicate)
                  :: evs) := by
            rw [iloop, dif_pos h, hc]
            dsimp only
            rw [hd]
            dsimp only
            rw [hr]
          rw [hstep]
          constructor
          · intro x hx
            rcases List.mem_cons.mp hx with h1 | h1
            · exact absurd h1 (by simp)
            · rcases List.mem_cons.mp h1 with h2 | h2
              · exact absurd h2 (by simp)
              · have := (ih (idx + 1) fs (del + 0)).1 x
                rw [hr] at this
                exact this h2
          · intro q hq hnq
            have := (ih (idx + 1) fs (del + 0)).2 q hq
            rw [hr] at this
            exact this (fun hm =>
              hnq (List.mem_cons_of_mem _ (List.mem_cons_of_mem _ hm)))
      | n =>
        rcases hr : iloop queue root rest (idx + 1) fs del with ⟨fsF, delF, evs⟩
        have hstep : iloop queue root (raw :: rest) idx fs del
            = (fsF, delF, Ev.prompt idx
                :: Ev.skipped (joinPath root (queue.get ⟨idx, h⟩).duplicate)
                :: evs) := by
          rw [iloop, dif_pos h, hc]
          dsimp only
          rw [hr]
        rw [hstep]
        constructor
        · intro x hx
          rcases List.mem_cons.mp hx with h1 | h1
          · exact absurd h1 (by simp)
          · rcases List.mem_cons.mp h1 with h2 | h2
            · exact absurd h2 (by simp)
            · have := (ih (idx + 1) fs del).1 x
              rw [hr] at this
              exact this h2
        · intro q hq hnq
          have := (ih (idx + 1) fs del).2 q hq
          rw [hr] at this
          exact this (fun hm =>
            hnq (List.mem_cons_of_mem _ (List.mem_cons_of_mem _ hm)))
      | yNum k =>
        rcases deleteIfExists_cases fs (joinPath root (queue.get ⟨idx, h⟩).duplicate)
          with ⟨hp, hd⟩ | ⟨hp, hd⟩
        · rcases ha : autoDelete queue root (k - 1) (idx + 1)
              (removeFirst fs (joinPath root (queue.get ⟨idx, h⟩).duplicate))
            with ⟨idx2, fs2, inc2, evs2⟩
          rcases hr : iloop queue root rest idx2 fs2 (del + 1 + inc2)
            with ⟨fsF, delF, evs⟩
          have hstep : iloop queue root (raw :: rest) idx fs del
              = (fsF, delF, Ev.prompt idx
                  :: Ev.deleted (joinPath root (queue.get ⟨idx, h⟩).duplicate)
                  :: (evs2 ++ evs)) := by
            rw [iloop, dif_pos h, hc]
            dsimp only
            rw [hd]
            dsimp only
            rw [ha]
            dsimp only
            rw [hr]
          rw [hstep]
          constructor
          · intro x hx
            rcases List.mem_cons.mp hx with h1 | h1
            · exact absurd h1 (by simp)
            · rcases List.mem_cons.mp h1 with h2 | h2
              · injection h2 with h3
                subst h3
                exact hcur
              · rcases List.mem_append.mp h2 with h3 | h3
                · have := (autoDelete_spec queue root (k - 1) (idx + 1)
                      (removeFirst fs
                        (joinPath root (queue.get ⟨idx, h⟩).duplicate))).1 x
                  rw [ha] at this
                  exact this h3
                · have := (ih idx2 fs2 (del + 1 + inc2)).1 x
                  rw [hr] at this
                  exact this h3
          · intro q hq hnq
            have hqp : q ≠ joinPath root (queue.get ⟨idx, h⟩).duplicate :=
              fun he => hnq (List.mem_cons_of_mem _ (he ▸ List.mem_cons_self _ _))
            have h2 := (autoDelete_spec queue root (k - 1) (idx + 1)
                (removeFirst fs
                  (joinPath root (queue.get ⟨idx, h⟩).duplicate))).2 q
                (mem_removeFirst hqp hq)
            rw [ha] at h2
            have h3 := (ih idx2 fs2 (del + 1 + inc2)).2 q
                (h2 (fun hm => hnq (List.mem_cons_of_mem _
                  (List.mem_cons_of_mem _ (List.mem_append.mpr (Or.inl hm))))))
            rw [hr] at h3
            exact h3 (fun hm => hnq (List.mem_cons_of_mem _
              (List.mem_cons_of_mem _ (List.mem_append.mpr (Or.inr hm)))))
        · rcases ha : autoDelete queue root (k - 1) (idx + 1) fs
            with ⟨idx2, fs2, inc2, evs2⟩
          rcases hr : iloop queue root rest idx2 fs2 (del + 0 + inc2)
            with ⟨fsF, delF, evs⟩
          have hstep : iloop queue root (raw :: rest) idx fs del
              = (fsF, delF, Ev.prompt idx
                  :: Ev.notFound (joinPath root (queue.get ⟨idx, h⟩).duplicate)
                  :: (evs2 ++ evs)) := by
            rw [iloop, dif_pos h, hc]
            dsimp only
            rw [hd]
            dsimp only
            rw [ha]
            dsimp only
            rw [hr]
          rw [hstep]
          constructor
          · intro x hx
            rcases List.mem_cons.mp hx with h1 | h1
            · exact absurd h1 (by simp)
            · rcases List.mem_cons.mp h1 with h2 | h2
              · exact absurd h2 (by simp)
              · rcases List.mem_append.mp h2 with h3 | h3
                · have := (autoDelete_spec queue root (k - 1) (idx + 1) fs).1 x
                  rw [ha] at this
                  exact this h3
                · have := (ih idx2 fs2 (del + 0 + inc2)).1 x
                  rw [hr] at this
                  exact this h3
          · intro q hq hnq
            have h2 := (autoDelete_spec queue root (k - 1) (idx + 1) fs).2 q hq
            rw [ha] at h2
            have h3 := (ih idx2 fs2 (del + 0 + inc2)).2 q
                (h2 (fun hm => hnq (List.mem_cons_of_mem _
                  (List.mem_cons_of_mem _ (List.mem_append.mpr (Or.inl hm))))))
            rw [hr] at h3
            exact h3 (fun hm => hnq (List.mem_cons_of_mem _
              (List.mem_cons_of_mem _ (List.mem_append.mpr (Or.inr hm)))))
      | nNum k =>
        rcases hr : iloop queue root rest (min (idx + k) queue.length) fs del
          with ⟨fsF, delF, evs⟩
        have hstep : iloop queue root (raw :: rest) idx fs del
            = (fsF, delF, Ev.prompt idx
                :: (((queue.drop idx).take k).map
                  (fun it => Ev.skipped (joinPath root it.duplicate)) ++ evs)) := by
          rw [iloop, dif_pos h, hc]
          dsimp only
          rw [hr]
        rw [hstep]
        constructor
        · intro x hx
          rcases List.mem_cons.mp hx with h1 | h1
          · exact absurd h1 (by simp)
          · rcases List.mem_append.mp h1 with h2 | h2
            · exact absurd h2 (deleted_not_mem_skipped_map _ root x)
            · have := (ih (min (idx + k) queue.length) fs del).1 x
              rw [hr] at this
              exact this h2
        · intro q hq hnq
          have := (ih (min (idx + k) queue.length) fs del).2 q hq
          rw [hr] at this
          exact this (fun hm => hnq (List.mem_cons_of_mem _
            (List.mem_append.mpr (Or.inr hm))))
      | yall =>
        rcases deleteIfExists_cases fs (joinPath root (queue.get ⟨idx, h⟩).duplicate)
          with ⟨hp, hd⟩ | ⟨hp, hd⟩
        · rcases ha : autoDelete queue root (queue.length - idx - 1) (idx + 1)
              (removeFirst fs (joinPath root (queue.get ⟨idx, h⟩).duplicate))
            with ⟨idx2, fs2, inc2, evs2⟩
          rcases hr : iloop queue root rest idx2 fs2 (del + 1 + inc2)
            with ⟨fsF, delF, evs⟩
          have hstep : iloop queue root (raw :: rest) idx fs del
              = (fsF, delF, Ev.prompt idx
                  :: Ev.deleted (joinPath root (queue.get ⟨idx, h⟩).duplicate)
                  :: (evs2 ++ evs)) := by
            rw [iloop, dif_pos h, hc]
            dsimp only
            rw [hd]
            dsimp only
            rw [ha]
            dsimp only
            rw [hr]
          rw [hstep]
          constructor
          · intro x hx
            rcases List.mem_cons.mp hx with h1 | h1
            · exact absurd h1 (by simp)
            · rcases List.mem_cons.mp h1 with h2 | h2
              · injection h2 with h3
                subst h3
                exact hcur
              · rcases List.mem_append.mp h2 with h3 | h3
                · have := (autoDelete_spec queue root (queue.length - idx - 1)
                      (idx + 1) (removeFirst fs
                        (joinPath root (queue.get ⟨idx, h⟩).duplicate))).1 x
                  rw [ha] at this
                  exact this h3
                · have := (ih idx2 fs2 (del + 1 + inc2)).1 x
                  rw [hr] at this
                  exact this h3
          · intro q hq hnq
            have hqp : q ≠ joinPath root (queue.get ⟨idx, h⟩).duplicate :=
              fun he => hnq (List.mem_cons_of_mem _ (he ▸ List.mem_cons_self _ _))
            have h2 := (autoDelete_spec queue root (queue.length - idx - 1)
                (idx + 1) (removeFirst fs
                  (joinPath root (queue.get ⟨idx, h⟩).duplicate))).2 q
                (mem_removeFirst hqp hq)
            rw [ha] at h2
            have h3 := (ih idx2 fs2 (del + 1 + inc2)).2 q
                (h2 (fun hm => hnq (List.mem_cons_of_mem _
                  (List.mem_cons_of_mem _ (List.mem_append.mpr (Or.inl hm))))))
            rw [hr] at h3
            exact h3 (fun hm => hnq (List.mem_cons_of_mem _
              (List.mem_cons_of_mem _ (List.mem_append.mpr (Or.inr hm)))))
        · rcases ha : autoDelete queue root (queue.length - idx - 1) (idx + 1) fs
            with ⟨idx2, fs2, inc2, evs2⟩
          rcases hr : iloop queue root rest idx2 fs2 (del + 0 + inc2)
            with ⟨fsF, delF, evs⟩
          have hstep : iloop queue root (raw :: rest) idx fs del
              = (fsF, delF, Ev.prompt idx
                  :: Ev.notFound (joinPath root (queue.get ⟨idx, h⟩).duplicate)
                  :: (evs2 ++ evs)) := by
            rw [iloop, dif_pos h, hc]
            dsimp only
            rw [hd]
            dsimp only
            rw [ha]
            dsimp only
            rw [hr]
          rw [hstep]
          constructor
          · intro x hx
            rcases List.mem_cons.mp hx with h1 | h1
            · exact absurd h1 (by simp)
            · rcases List.mem_cons.mp h1 with h2 | h2
              · exact absurd h2 (by simp)
              · rcases List.mem_append.mp h2 with h3 | h3
                · have := (autoDelete_spec queue root (queue.length - idx - 1)
                      (idx + 1) fs).1 x
                  rw [ha] at this
                  exact this h3
                · have := (ih idx2 fs2 (del + 0 + inc2)).1 x
                  rw [hr] at this
                  exact this h3
          · intro q hq hnq
            have h2 := (autoDelete_spec queue root (queue.length - idx - 1)
                (idx + 1) fs).2 q hq
            rw [ha] at h2
            have h3 := (ih idx2 fs2 (del + 0 + inc2)).2 q
                (h2 (fun hm => hnq (List.mem_cons_of_mem _
                  (List.mem_cons_of_mem _ (List.mem_append.mpr (Or.inl hm))))))
            rw [hr] at h3
            exact h3 (fun hm => hnq (List.mem_cons_of_mem _
              (List.mem_cons_of_mem _ (List.mem_append.mpr (Or.inr hm)))))
      | nall =>
        have hstep : iloop queue root (raw :: rest) idx fs del
            = (fs, del, Ev.prompt idx :: Ev.cancelled
                :: (queue.drop idx).map
                  (fun it => Ev.skipped (joinPath root it.duplicate))) := by
          rw [iloop, dif_pos h, hc]
        rw [hstep]
        constructor
        · intro x hx
          rcases List.mem_cons.mp hx with h1 | h1
          · exact absurd h1 (by simp)
          · rcases List.mem_cons.mp h1 with h2 | h2
            · exact absurd h2 (by simp)
            · exact absurd h2 (deleted_not_mem_skipped_map _ root x)
        · intro q hq _
          exact hq
      | invalid =>
        rcases hr : iloop queue root rest idx fs del with ⟨fsF, delF, evs⟩
        have hstep : iloop queue root (raw :: rest) idx fs del
            = (fsF, delF, Ev.prompt idx :: Ev.invalid :: evs) := by
          rw [iloop, dif_pos h, hc]
          dsimp only
          rw [hr]
        rw [hstep]
        constructor
        · intro x hx
          rcases List.mem_cons.mp hx with h1 | h1
          · exact absurd h1 (by simp)
          · rcases List.mem_cons.mp h1 with h2 | h2
            · exact absurd h2 (by simp)
            · have := (ih idx fs del).1 x
              rw [hr] at this
              exact this h2
        · intro q hq hnq
          have := (ih idx fs del).2 q hq
          rw [hr] at this
          exact this (fun hm =>
            hnq (List.mem_cons_of_mem _ (List.mem_cons_of_mem _ hm)))
    · have hstep : iloop queue root (raw :: rest) idx fs del = (fs, del, []) := by
        rw [iloop, dif_neg h]
      rw [hstep]
      exact ⟨fun x hx => by simp at hx, fun q hq _ => hq⟩

theorem batchLoop_spec (root : String) :
    ∀ (items : List Pair) (fs : List String) (del i t : Nat),
      (∀ x, Ev.deleted x ∈ (batchLoop root items fs del i t).2.2 →
        x ∈ dupJoined root items) ∧
      (∀ q, q ∈ fs → Ev.deleted q ∉ (batchLoop root items fs del i t).2.2 →
        q ∈ (batchLoop root items fs del i t).1) := by
  intro items
  induction items with
  | nil =>
    intro fs del i t
    exact ⟨fun x hx => by simp [batchLoop] at hx, fun q hq _ => hq⟩
  | cons it rest ih =>
    intro fs del i t
    rcases deleteIfExists_cases fs (joinPath root it.duplicate)
      with ⟨hp, hd⟩ | ⟨hp, hd⟩
    · rcases hb : batchLoop root rest
          (removeFirst fs (joinPath root it.duplicate)) (del + 1) (i + 1) t
        with ⟨fsF, delF, evs⟩
      have hstep : batchLoop root (it :: rest) fs del i t
          = (fsF, delF, Ev.progress i t
              :: Ev.deleted (joinPath root it.duplicate) :: evs) := by
        rw [batchLoop, hd]
        dsimp only
        rw [hb]
      rw [hstep]
      constructor
      · intro x hx
        rcases List.mem_cons.mp hx with h1 | h1
        · exact absurd h1 (by simp)
        · rcases List.mem_cons.mp h1 with h2 | h2
          · injection h2 with h3
            subst h3
            exact List.mem_map_of_mem _ (List.mem_cons_self _ _)
          · have := (ih (removeFirst fs (joinPath root it.duplicate))
                (del + 1) (i + 1) t).1 x
            rw [hb] at this
            exact List.mem_cons_of_mem _ (this h2)
      · intro q hq hnq
        have hqp : q ≠ joinPath root it.duplicate :=
          fun he => hnq (List.mem_cons_of_mem _ (he ▸ List.mem_cons_self _ _))
        have hq1 := mem_removeFirst hqp hq
        have := (ih (removeFirst fs (joinPath root it.duplicate))
            (del + 1) (i + 1) t).2 q hq1
        rw [hb] at this
        exact this (fun hm =>
          hnq (List.mem_cons_of_mem _ (List.mem_cons_of_mem _ hm)))
    · rcases hb : batchLoop root rest fs (del + 0) (i + 1) t with ⟨fsF, delF, evs⟩
      have hstep : batchLoop root (it :: rest) fs del i t
          = (fsF, delF, Ev.progress i t
              :: Ev.notFound (joinPath root it.duplicate) :: evs) := by
        rw [batchLoop, hd]
        dsimp only
        rw [hb]
      rw [hstep]
      constructor
      · intro x hx
        rcases List.mem_cons.mp hx with h1 | h1
        · exact absurd h1 (by simp)
        · rcases List.mem_cons.mp h1 with h2 | h2
          · exact absurd h2 (by simp)
          · have := (ih fs (del + 0) (i + 1) t).1 x
            rw [hb] at this
            exact List.mem_cons_of_mem _ (this h2)
      · intro q hq hnq
        have := (ih fs (del + 0) (i + 1) t).2 q hq
        rw [hb] at this
        exact this (fun hm =>
          hnq (List.mem_cons_of_mem _ (List.mem_cons_of_mem _ hm)))

theorem mem_dupJoined_buildQueue {p root : String} {groups : List DupGroup}
    (h : p ∈ dupJoined root (buildQueue groups)) :
    ∃ g ∈ groups, ∃ d ∈ g.duplicates, p = joinPath root d := by
  simp only [dupJoined, List.mem_map] at h
  obtain ⟨it, hit, hp⟩ := h
  simp only [buildQueue, List.mem_flatten, List.mem_map] at hit
  obtain ⟨l, ⟨g, hg, hgl⟩, hitl⟩ := hit
  subst hgl
  obtain ⟨d, hd, hde⟩ := List.mem_map.mp hitl
  subst hde
  exact ⟨g, hg, d, hd, hp.symm⟩

theorem delete_duplicates_spec (dups : List DupGroup) (bd od : String)
    (st : Nat) (cf : Bool) (ln : Nat) (inputs : List String) (ans : String)
    (fs : List String) :
    (∀ x, Ev.deleted x ∈ (delete_duplicates dups bd od st cf ln inputs ans fs).2.2 →
      x ∈ dupJoined od (buildQueue dups)) ∧
    (∀ q, q ∈ fs →
      Ev.deleted q ∉ (delete_duplicates dups bd od st cf ln inputs ans fs).2.2 →
      q ∈ (delete_duplicates dups bd od st cf ln inputs ans fs).1) := by
  cases cf with
  | true =>
    rcases hi : iloop (buildQueue dups) od inputs 0 fs 0 with ⟨fsF, del, evs⟩
    have hstep : delete_duplicates dups bd od st true ln inputs ans fs
        = (fsF, del, Ev.announce (buildQueue dups).length
            :: (evs ++ [Ev.summary del, Ev.reminder])) := by
      show (match iloop (buildQueue dups) od inputs 0 fs 0 with
        | (fsF, del, evs) =>
          (fsF, del, Ev.announce (buildQueue dups).length
            :: (evs ++ [Ev.summary del, Ev.reminder]))) = _
      rw [hi]
    rw [hstep]
    constructor
    · intro x hx
      rcases List.mem_cons.mp hx with h1 | h1
      · exact absurd h1 (by simp)
      · rcases List.mem_append.mp h1 with h2 | h2
        · have := (iloop_spec (buildQueue dups) od inputs 0 fs 0).1 x
          rw [hi] at this
          exact this h2
        · exact absurd h2 (by simp)
    · intro q hq hnq
      have := (iloop_spec (buildQueue dups) od inputs 0 fs 0).2 q hq
      rw [hi] at this
      exact this (fun hm =>
        hnq (List.mem_cons_of_mem _ (List.mem_append.mpr (Or.inl hm))))
  | false =>
    by_cases hcond : st = 0 ∧ pyLower ans ≠ "yes"
    · have hstep : delete_duplicates dups bd od st false ln inputs ans fs
          = (fs, 0, [Ev.announce (buildQueue dups).length, Ev.cancelled]) := by
        show (if st = 0 ∧ pyLower ans ≠ "yes" then
            (fs, 0, [Ev.announce (buildQueue dups).length, Ev.cancelled])
          else
            match batchLoop od (buildQueue dups) fs 0 1 (buildQueue dups).length with
            | (fsF, del, evs) =>
              (fsF, del, Ev.announce (buildQueue dups).length
                :: (evs ++ [Ev.summary del, Ev.reminder]))) = _
        rw [if_pos hcond]
      rw [hstep]
      exact ⟨fun x hx => by simp at hx, fun q hq _ => hq⟩
    · rcases hb : batchLoop od (buildQueue dups) fs 0 1 (buildQueue dups).length
        with ⟨fsF, del, evs⟩
      have hstep : delete_duplicates dups bd od st false ln inputs ans fs
          = (fsF, del, Ev.announce (buildQueue dups).length
              :: (evs ++ [Ev.summary del, Ev.reminder])) := by
        show (if st = 0 ∧ pyLower ans ≠ "yes" then
            (fs, 0, [Ev.announce (buildQueue dups).length, Ev.cancelled])
          else
            match batchLoop od (buildQueue dups) fs 0 1 (buildQueue dups).length with
            | (fsF, del, evs) =>
              (fsF, del, Ev.announce (buildQueue dups).length
                :: (evs ++ [Ev.summary del, Ev.reminder]))) = _
        rw [if_neg hcond, hb]
      rw [hstep]
      have hq : dupJoined od (buildQueue dups) = dupJoined od (buildQueue dups) := rfl
      constructor
      · intro x hx
        rcases List.mem_cons.mp hx with h1 | h1
        · exact absurd h1 (by simp)
        · rcases List.mem_append.mp h1 with h2 | h2
          · have := (batchLoop_spec od (buildQueue dups) fs 0 1
                (buildQueue dups).length).1 x
            rw [hb] at this
            exact this h2
          · exact absurd h2 (by simp)
      · intro q hqf hnq
        have := (batchLoop_spec od (buildQueue dups) fs 0 1
            (buildQueue dups).length).2 q hqf
        rw [hb] at this
        exact this (fun hm =>
          hnq (List.mem_cons_of_mem _ (List.mem_append.mpr (Or.inl hm))))

/-! ## Claim theorems -/

/-- C1: the claim asserts that in two-tree mode the Comparison digest
table maps each digest to the list of *every* comparison-tree file
sharing that digest, so that the resolved group's `duplicates` has
length `k` when `k` comparison files share a canonical digest.  The
code's `calculate_checksums` instead keeps a plain dict
`other_checksums[checksum] = record` (line 351): evaluating it on two
comparison files `b1`, `b2` sharing digest `d` leaves a table holding
only the last record `b2`, so the first file is lost and the group built
from this table cannot contain both records. -/
theorem c1_comparison_table_keeps_only_last :
    calc_dir_checksums [⟨"b1", "d"⟩, ⟨"b2", "d"⟩] [] false = ([("d", "b2")], 2) ∧
    dictFind (calc_dir_checksums [⟨"b1", "d"⟩, ⟨"b2", "d"⟩] [] false).1 "d" = some "b2" := by
  exact ⟨by decide, by decide⟩

/-- C4: in two-tree mode the summary counts are derived, not stored:
`totalComparison` is the sum of the list lengths of the Comparison
table, `totalDuplicates` sums the duplicate-list lengths across the
emitted groups — equivalently the Comparison list lengths of the shared
digests — and `uniqueInComparison = totalComparison - totalDuplicates`.
On Canonical = d1 ↦ fileA and Comparison = d1 ↦ [fileB, fileC],
d2 ↦ [fileD] this yields totalComparison = 3, totalDuplicates = 2 and
uniqueInComparison = 1. -/
theorem c4_two_tree_summary_counts :
    (∀ (base : List (String × String)) (other : List (String × List String)),
      total_duplicates_count (summarize_duplicates base other).1
        = ((other.filter (fun e => (dictFind base e.1).isSome)).map
            (fun e => e.2.length)).sum) ∧
    summarize_duplicates [("d1", "fileA")] [("d1", ["fileB", "fileC"]), ("d2", ["fileD"])]
      = ([("d1", "fileA", ["fileB", "fileC"])], 1, 3) ∧
    total_duplicates_count
      (summarize_duplicates [("d1", "fileA")]
        [("d1", ["fileB", "fileC"]), ("d2", ["fileD"])]).1 = 2 ∧
    total_unique_count
      (summarize_duplicates [("d1", "fileA")]
        [("d1", ["fileB", "fileC"]), ("d2", ["fileD"])]).2.2
      (summarize_duplicates [("d1", "fileA")]
        [("d1", ["fileB", "fileC"]), ("d2", ["fileD"])]).1 = 1 := by
  refine ⟨?_, by decide, by decide, by decide⟩
  intro base other
  induction other with
  | nil => rfl
  | cons e rest ih =>
    simp only [summarize_duplicates, total_duplicates_count, List.filterMap_cons,
      List.filter_cons] at *
    cases h : dictFind base e.1 with
    | none => simpa [h] using ih
    | some b => simpa [h] using ih

/-- C5 counterexample: the claim states that *every* load operation on a
checksum file containing a line with the wrong tab-separated field count
fails fatally and never returns a partially loaded table.  But
`load_checksums` (the loader of the `delete` command) catches the parse
error: on a file whose second line is malformed it returns normally with
only the record before the bad line — a partial load, as the third
conjunct's run of the same file without the bad line shows. -/
theorem c5_load_truncating_counterexample :
    load_checksums ["BASE\td1\tp1", "bad", "BASE\td2\tp2"] = ([("d1", "p1")], []) ∧
    load_checksums ["BASE\td1\tp1", "BASE\td2\tp2"]
      = ([("d1", "p1"), ("d2", "p2")], []) := by
  exact ⟨by decide, by decide⟩

/-- C5 amended: a persisted line that does not split into the expected
field count is fatal to `load_existing_checksums` — the error propagates
to the caller and no table, partial or otherwise, is returned — whereas
`load_checksums` catches the error, reports it, and returns exactly the
records accumulated before the malformed line (everything after it is
dropped). -/
theorem c5_load_malformed_amended (pre : List String) (l : String)
    (post : List String) (h : parseRecord3 l = none) :
    (∃ e, load_existing_checksums (pre ++ l :: post) = Except.error e) ∧
    (∀ b o, load_checksums_go (pre ++ l :: post) b o = load_checksums_go pre b o) := by
  constructor
  · show ∃ e, load_existing_checksums_go (pre ++ l :: post) ([], []) = Except.error e
    generalize ([], []) = acc
    induction pre generalizing acc with
    | nil =>
      refine ⟨l, ?_⟩
      simp only [List.nil_append, load_existing_checksums_go]
      rw [h]
    | cons x rest ih =>
      simp only [List.cons_append, load_existing_checksums_go]
      cases hx : parseRecord3 x with
      | none => exact ⟨x, rfl⟩
      | some t =>
        obtain ⟨cat, c, p⟩ := t
        by_cases hb : cat = "BASE"
        · simpa [hb] using ih _
        · by_cases ho : cat = "OTHER"
          · simpa [hb, ho] using ih _
          · exact ⟨x, by simp [hb, ho]⟩
  · intro b o
    induction pre generalizing b o with
    | nil =>
      simp only [List.nil_append, load_checksums_go]
      rw [h]
    | cons x rest ih =>
      simp only [List.cons_append, load_checksums_go]
      cases hx : parseRecord3 x with
      | none => rfl
      | some t =>
        obtain ⟨cat, c, p⟩ := t
        by_cases hb : cat = "BASE"
        · simpa [hb] using ih _ _
        · by_cases ho : cat = "OTHER"
          · simpa [hb, ho] using ih _ _
          · simpa [hb, ho] using ih _ _

/-- C5 witness: the amended statement at a concrete malformed file. -/
theorem c5_load_malformed_witness :
    (∃ e, load_existing_checksums
        (["BASE\td1\tp1"] ++ "bad" :: ["OTHER\td2\tp2"]) = Except.error e) ∧
    load_checksums_go (["BASE\td1\tp1"] ++ "bad" :: ["OTHER\td2\tp2"]) [] []
      = load_checksums_go ["BASE\td1\tp1"] [] [] :=
  ⟨(c5_load_malformed_amended ["BASE\td1\tp1"] "bad" ["OTHER\td2\tp2"] (by decide)).1,
   (c5_load_malformed_amended ["BASE\td1\tp1"] "bad" ["OTHER\td2\tp2"] (by decide)).2 [] []⟩

/-- C7 counterexample: the claim asserts zero hash computations on the
second run for *every* unchanged tree, including trees with intra-tree
duplicate contents.  For a tree with files `p1`, `p2` sharing digest `c`
the first run's table keeps only `p2` (dict overwrite by checksum key),
so the persisted file records no digest for path `p1`: the second run
with reuse enabled performs 1 hash computation, not 0 (the table itself
is reproduced identically). -/
theorem c7_reuse_rehash_counterexample :
    (calc_dir_checksums [⟨"p1", "c"⟩, ⟨"p2", "c"⟩] [] false).1 = [("c", "p2")] ∧
    (calc_dir_checksums [⟨"p1", "c"⟩, ⟨"p2", "c"⟩]
      (saved_path_map (calc_dir_checksums [⟨"p1", "c"⟩, ⟨"p2", "c"⟩] [] false).1)
      true).1 = [("c", "p2")] ∧
    (calc_dir_checksums [⟨"p1", "c"⟩, ⟨"p2", "c"⟩]
      (saved_path_map (calc_dir_checksums [⟨"p1", "c"⟩, ⟨"p2", "c"⟩] [] false).1)
      true).2 = 1 := by
  exact ⟨by decide, by decide, by decide⟩

/-- C7 amended: running the digesting loop twice over an unchanged tree
(whose walk yields pairwise distinct relative paths), saving the digest
table after the first run and loading it before the second, always
reproduces the identical digest table; the second run performs zero hash
computations provided the tree's files have pairwise distinct digests —
for a tree with intra-tree duplicate contents the files displaced from
the checksum-keyed table by the last-write-wins overwrite are re-hashed,
since the persisted table records only one path per digest. -/
theorem c7_reuse_idempotent_amended (files : List SrcFile)
    (hp : (files.map SrcFile.path).Nodup) :
    (calc_dir_checksums files
        (saved_path_map (calc_dir_checksums files [] false).1) true).1
      = (calc_dir_checksums files [] false).1 ∧
    ((files.map SrcFile.digest).Nodup →
      (calc_dir_checksums files
        (saved_path_map (calc_dir_checksums files [] false).1) true).2 = 0) := by
  have h1 : (calc_dir_checksums files [] false).1 = digestTableOf files [] := by
    show (calc_dir_go [] false files [] 0).1 = _
    rw [calc_dir_go_false]
  constructor
  · show (calc_dir_go _ true files [] 0).1 = _
    rw [h1]
    exact calc_dir_go_reuse_table _ files [] 0 (saved_digest_correct files hp)
  · intro hd
    show (calc_dir_go _ true files [] 0).2 = 0
    apply calc_dir_go_reuse_count
    intro f hf
    apply dictFind_isSome_of_mem_keys
    rw [h1, digestTableOf_of_nodup hd (by simp [keysOf])]
    simp only [saved_path_map, keysOf, List.nil_append, List.map_map]
    exact List.mem_map.mpr ⟨f, hf, rfl⟩

/-- C7 witness: the amended statement at a two-file tree with distinct
paths and digests. -/
theorem c7_reuse_idempotent_witness :
    (calc_dir_checksums [⟨"a", "c1"⟩, ⟨"b", "c2"⟩]
        (saved_path_map
          (calc_dir_checksums [⟨"a", "c1"⟩, ⟨"b", "c2"⟩] [] false).1) true).1
      = (calc_dir_checksums [⟨"a", "c1"⟩, ⟨"b", "c2"⟩] [] false).1 ∧
    (calc_dir_checksums [⟨"a", "c1"⟩, ⟨"b", "c2"⟩]
        (saved_path_map
          (calc_dir_checksums [⟨"a", "c1"⟩, ⟨"b", "c2"⟩] [] false).1) true).2 = 0 :=
  ⟨(c7_reuse_idempotent_amended [⟨"a", "c1"⟩, ⟨"b", "c2"⟩] (by decide)).1,
   (c7_reuse_idempotent_amended [⟨"a", "c1"⟩, ⟨"b", "c2"⟩] (by decide)).2 (by decide)⟩

/-- C9: in single-tree mode, for every digest table built in first-seen
traversal order, a digest whose occurrence list has length greater than
1 yields exactly one group with the first file encountered as canonical
(`original`) and all later files, in encounter order, as `duplicates`; a
digest occurring exactly once yields no group; and every emitted group
has a non-empty duplicates list. -/
theorem c9_single_tree_resolver (files : List SrcFile) (d p q : String)
    (ps : List String) :
    (occList d files = p :: q :: ps →
      dictFind (summarize_duplicates_single_dir
          (calculate_checksums_single_dir files [] false).1).1 d
        = some ⟨p, q :: ps⟩) ∧
    (occList d files = [p] →
      dictFind (summarize_duplicates_single_dir
          (calculate_checksums_single_dir files [] false).1).1 d = none) ∧
    (∀ e ∈ (summarize_duplicates_single_dir
        (calculate_checksums_single_dir files [] false).1).1,
      e.2.duplicates ≠ []) := by
  have hn : (keysOf (calculate_checksums_single_dir files [] false).1).Nodup :=
    calc_single_keys_nodup files [] 0 (by simp [keysOf])
  have hfind : dictFind (calculate_checksums_single_dir files [] false).1 d
      = combineEntry none (occList d files) := calc_single_find d files [] 0
  refine ⟨?_, ?_, ?_⟩
  · intro hocc
    show dictFind (((calculate_checksums_single_dir files [] false).1).filter
        (fun e => !e.2.duplicates.isEmpty)) d = _
    rw [dictFind_filter_of_nodup _ hn d, hfind, hocc]
    rfl
  · intro hocc
    show dictFind (((calculate_checksums_single_dir files [] false).1).filter
        (fun e => !e.2.duplicates.isEmpty)) d = _
    rw [dictFind_filter_of_nodup _ hn d, hfind, hocc]
    rfl
  · intro e he
    have := (List.mem_filter.mp he).2
    simpa using this

/-- C9 witness: the resolver on the spec's example walk, where digest
`d1` occurs at `p1`, `p2`, `p3` (in order) and `d2` only at `p4`. -/
theorem c9_single_tree_resolver_witness :
    dictFind (summarize_duplicates_single_dir
        (calculate_checksums_single_dir
          [⟨"p1", "d1"⟩, ⟨"p2", "d1"⟩, ⟨"p3", "d1"⟩, ⟨"p4", "d2"⟩] [] false).1).1 "d1"
      = some ⟨"p1", ["p2", "p3"]⟩ ∧
    dictFind (summarize_duplicates_single_dir
        (calculate_checksums_single_dir
          [⟨"p1", "d1"⟩, ⟨"p2", "d1"⟩, ⟨"p3", "d1"⟩, ⟨"p4", "d2"⟩] [] false).1).1 "d2"
      = none :=
  ⟨(c9_single_tree_resolver
      [⟨"p1", "d1"⟩, ⟨"p2", "d1"⟩, ⟨"p3", "d1"⟩, ⟨"p4", "d2"⟩] "d1" "p1" "p2"
      ["p3"]).1 (by decide),
   (c9_single_tree_resolver
      [⟨"p1", "d1"⟩, ⟨"p2", "d1"⟩, ⟨"p3", "d1"⟩, ⟨"p4", "d2"⟩] "d2" "p4" ""
      []).2.1 (by decide)⟩

/-- C2: the claim states that `y<N>` deletes the item at the cursor and
then auto-deletes exactly the next `N-1` items (positions `i+1` through
`i+N-1`), so that on a queue of 5 pairs the inputs `y3, n, y` delete
items 1-3, skip item 4 and delete item 5.  The code's auto-delete run
advances the cursor *before* each unprompted removal (lines 602-608), so
`y3` at item 1 deletes items 1, 3 and 4 — item 2 is never touched — and
the subsequent `n` "skips" the already-deleted item 4.  The reported
total is 4 as claimed, but the set of deleted files is wrong: `r/p2`
survives the run while `r/p4` is removed despite the operator's `n`. -/
theorem c2_auto_delete_window_shifted :
    delete_duplicates [⟨"b", ["p1", "p2", "p3", "p4", "p5"]⟩] "base" "r" 1 true 5
        ["y3", "n", "y"] "" ["r/p1", "r/p2", "r/p3", "r/p4", "r/p5"]
      = (["r/p2"], 4,
         [Ev.announce 5, Ev.prompt 0, Ev.deleted "r/p1", Ev.deleted "r/p3",
          Ev.deleted "r/p4", Ev.prompt 3, Ev.skipped "r/p4", Ev.prompt 4,
          Ev.deleted "r/p5", Ev.summary 4, Ev.reminder]) := by
  decide

/-- C3: the claim states that `yall` deletes the item at the cursor and
every remaining item, leaving no item unprocessed.  With the same
off-by-one auto-delete run (cursor advanced before each removal, lines
602-608 with `skip_count = total - idx - 1`), `yall` on a 3-item queue
deletes items 1 and 3 only: item 2 (`r/p2`) is neither deleted nor
reported as skipped, and the loop exits with it unprocessed. -/
theorem c3_yall_leaves_item_undeleted :
    delete_duplicates [⟨"b", ["p1", "p2", "p3"]⟩] "base" "r" 1 true 5 ["yall"]
        "" ["r/p1", "r/p2", "r/p3"]
      = (["r/p2"], 2,
         [Ev.announce 3, Ev.prompt 0, Ev.deleted "r/p1", Ev.deleted "r/p3",
          Ev.summary 2, Ev.reminder]) := by
  decide

/-- C6 counterexample: the claim states that the driver reports the
total deleted count and the checksum-staleness reminder on *every* exit,
including the batch-mode zero-delay run whose initial yes/no
confirmation is declined.  That run returns early (line 646) before the
report: its event trace holds neither a summary nor a reminder (it does
perform zero deletions and return normally, as the first conjunct's
equality shows). -/
theorem c6_batch_declined_counterexample :
    delete_duplicates [⟨"b", ["p1", "p2", "p3"]⟩] "bb" "r" 0 false 5 [] "no"
        ["r/p1", "r/p2", "r/p3"]
      = (["r/p1", "r/p2", "r/p3"], 0, [Ev.announce 3, Ev.cancelled]) := by
  decide

/-- C6 amended: every run of the deletion driver returns normally
whether zero, some, or all candidate files were removed; the total
deleted count and the checksum-staleness reminder are reported on every
exit *except* the batch-mode zero-delay run whose initial yes/no
confirmation is declined, which returns early with zero deletions and no
final report. -/
theorem c6_exit_report_amended (dups : List DupGroup) (bd od : String)
    (st : Nat) (cf : Bool) (ln : Nat) (inputs : List String) (ans : String)
    (fs : List String) :
    (cf = true ∨ st ≠ 0 ∨ pyLower ans = "yes" →
      ∃ fsF d pre,
        delete_duplicates dups bd od st cf ln inputs ans fs
          = (fsF, d, Ev.announce (buildQueue dups).length
              :: (pre ++ [Ev.summary d, Ev.reminder]))) ∧
    (cf = false → st = 0 → pyLower ans ≠ "yes" →
      delete_duplicates dups bd od st cf ln inputs ans fs
        = (fs, 0, [Ev.announce (buildQueue dups).length, Ev.cancelled])) := by
  constructor
  · intro h
    cases cf with
    | true =>
      rcases hi : iloop (buildQueue dups) od inputs 0 fs 0 with ⟨fsF, del, evs⟩
      refine ⟨fsF, del, evs, ?_⟩
      show (match iloop (buildQueue dups) od inputs 0 fs 0 with
        | (fsF, del, evs) =>
          (fsF, del, Ev.announce (buildQueue dups).length
            :: (evs ++ [Ev.summary del, Ev.reminder]))) = _
      rw [hi]
    | false =>
      have hcond : ¬(st = 0 ∧ pyLower ans ≠ "yes") := by
        rcases h with h | h | h
        · exact absurd h (by simp)
        · exact fun hc => h hc.1
        · exact fun hc => hc.2 h
      rcases hb : batchLoop od (buildQueue dups) fs 0 1 (buildQueue dups).length
        with ⟨fsF, del, evs⟩
      refine ⟨fsF, del, evs, ?_⟩
      show (if st = 0 ∧ pyLower ans ≠ "yes" then
          (fs, 0, [Ev.announce (buildQueue dups).length, Ev.cancelled])
        else
          match batchLoop od (buildQueue dups) fs 0 1 (buildQueue dups).length with
          | (fsF, del, evs) =>
            (fsF, del, Ev.announce (buildQueue dups).length
              :: (evs ++ [Ev.summary del, Ev.reminder]))) = _
      rw [if_neg hcond, hb]
  · intro hcf hst hans
    subst hcf
    subst hst
    show (if (0 : Nat) = 0 ∧ pyLower ans ≠ "yes" then
        (fs, 0, [Ev.announce (buildQueue dups).length, Ev.cancelled])
      else _) = _
    rw [if_pos ⟨rfl, hans⟩]

/-- C6 witness: the amended statement instantiated at an interactive run
and at a declined batch run. -/
theorem c6_exit_report_witness :
    (∃ fsF d pre,
      delete_duplicates [⟨"b", ["p1"]⟩] "bb" "r" 1 true 5 [] "" ["r/p1"]
        = (fsF, d, Ev.announce (buildQueue [⟨"b", ["p1"]⟩]).length
            :: (pre ++ [Ev.summary d, Ev.reminder]))) ∧
    delete_duplicates [⟨"b", ["p1"]⟩] "bb" "r" 0 false 5 [] "no" ["r/p1"]
      = (["r/p1"], 0,
         [Ev.announce (buildQueue [⟨"b", ["p1"]⟩]).length, Ev.cancelled]) :=
  ⟨(c6_exit_report_amended [⟨"b", ["p1"]⟩] "bb" "r" 1 true 5 [] "" ["r/p1"]).1
      (Or.inl rfl),
   (c6_exit_report_amended [⟨"b", ["p1"]⟩] "bb" "r" 0 false 5 [] "no"
      ["r/p1"]).2 rfl rfl (by decide)⟩

/-- C8: whenever a deletion target is absent from the file system at
delete time, the removal step reports a not-found warning, does not
increment the deleted counter and does not change the file system; every
deletion site of both drivers (interactive current item, auto-delete
batch, batch loop, and their single-dir twins) is this same
exists-check-then-remove step, and the batch loop continues with the
remaining queue unchanged after the warning. -/
theorem c8_missing_target (fs : List String) (root : String) (it : Pair)
    (rest : List Pair) (del i t : Nat)
    (h : joinPath root it.duplicate ∉ fs) :
    deleteIfExists fs (joinPath root it.duplicate)
      = (fs, 0, Ev.notFound (joinPath root it.duplicate)) ∧
    batchLoop root (it :: rest) fs del i t
      = ((batchLoop root rest fs (del + 0) (i + 1) t).1,
         (batchLoop root rest fs (del + 0) (i + 1) t).2.1,
         Ev.progress i t :: Ev.notFound (joinPath root it.duplicate)
           :: (batchLoop root rest fs (del + 0) (i + 1) t).2.2) := by
  have h1 : deleteIfExists fs (joinPath root it.duplicate)
      = (fs, 0, Ev.notFound (joinPath root it.duplicate)) := by
    simp [deleteIfExists, h]
  refine ⟨h1, ?_⟩
  rcases hb : batchLoop root rest fs (del + 0) (i + 1) t with ⟨fsF, delF, evs⟩
  rw [batchLoop, h1]
  dsimp only
  rw [hb]

/-- C8 witness: a batch step whose target is not on the file system. -/
theorem c8_missing_target_witness :
    deleteIfExists ["r/a"] (joinPath "r" "x")
      = (["r/a"], 0, Ev.notFound (joinPath "r" "x")) ∧
    batchLoop "r" [⟨"b", "x"⟩] ["r/a"] 0 1 1
      = ((batchLoop "r" [] ["r/a"] (0 + 0) 2 1).1,
         (batchLoop "r" [] ["r/a"] (0 + 0) 2 1).2.1,
         Ev.progress 1 1 :: Ev.notFound (joinPath "r" "x")
           :: (batchLoop "r" [] ["r/a"] (0 + 0) 2 1).2.2) :=
  c8_missing_target ["r/a"] "r" ⟨"b", "x"⟩ [] 0 1 1 (by decide)

/-- C10: in every run of either deletion routine, every path passed to
the removal primitive is the join, under the comparison/target root, of
an entry of some group's duplicates list; the canonical (base/original)
record is never itself removed, so whenever its resolved path differs
from every duplicate's resolved path a canonical file present on the
file system survives the run. -/
theorem c10_only_duplicates_deleted (dups : List DupGroup) (bd od : String)
    (st : Nat) (cf : Bool) (ln : Nat) (inputs : List String) (ans : String)
    (fs : List String) :
    (∀ p, p ∈ deletedPaths
        (delete_duplicates dups bd od st cf ln inputs ans fs).2.2 →
      ∃ g ∈ dups, ∃ d ∈ g.duplicates, p = joinPath od d) ∧
    (∀ g ∈ dups,
      (∀ g' ∈ dups, ∀ d ∈ g'.duplicates, joinPath bd g.base ≠ joinPath od d) →
      joinPath bd g.base ∈ fs →
      joinPath bd g.base
        ∈ (delete_duplicates dups bd od st cf ln inputs ans fs).1) ∧
    (∀ p, p ∈ deletedPaths
        (delete_duplicates_single_dir dups od st cf ln inputs ans fs).2.2 →
      ∃ g ∈ dups, ∃ d ∈ g.duplicates, p = joinPath od d) := by
  refine ⟨?_, ?_, ?_⟩
  · intro p hp
    exact mem_dupJoined_buildQueue
      ((delete_duplicates_spec dups bd od st cf ln inputs ans fs).1 p
        (mem_deletedPaths.mp hp))
  · intro g hg hne hmem
    apply (delete_duplicates_spec dups bd od st cf ln inputs ans fs).2 _ hmem
    intro hdel
    obtain ⟨g', hg', d, hd, heq⟩ := mem_dupJoined_buildQueue
      ((delete_duplicates_spec dups bd od st cf ln inputs ans fs).1 _ hdel)
    exact hne g' hg' d hd heq
  · intro p hp
    exact mem_dupJoined_buildQueue
      ((delete_duplicates_spec dups od od st cf ln inputs ans fs).1 p
        (mem_deletedPaths.mp hp))

/-- C10 witness: a batch run deleting `r/x`; the deleted path comes from
the group's duplicates and the canonical file `b/a` survives. -/
theorem c10_only_duplicates_deleted_witness :
    (∃ g ∈ [DupGroup.mk "a" ["x"]], ∃ d ∈ g.duplicates,
      "r/x" = joinPath "r" d) ∧
    joinPath "b" "a"
      ∈ (delete_duplicates [DupGroup.mk "a" ["x"]] "b" "r" 1 false 5 [] ""
          ["b/a", "r/x"]).1 := by
  constructor
  · exact (c10_only_duplicates_deleted [DupGroup.mk "a" ["x"]] "b" "r" 1 false 5
      [] "" ["b/a", "r/x"]).1 "r/x" (by decide)
  · refine (c10_only_duplicates_deleted [DupGroup.mk "a" ["x"]] "b" "r" 1 false 5
      [] "" ["b/a", "r/x"]).2.1 (DupGroup.mk "a" ["x"]) (by decide) ?_ (by decide)
    intro g' hg' d hd
    have hg2 : g' = DupGroup.mk "a" ["x"] := List.mem_singleton.mp hg'
    subst hg2
    have hd2 : d = "x" := List.mem_singleton.mp hd
    subst hd2
    decide

end GetRidOfDup
